import Mathlib

/-!
Verification of the SyncStock incremental rollup engine (`syncstock.py`,
`query.py`, `db.py`).  Dates are embedded as integer day numbers (Python
`date` plus `timedelta` arithmetic is exactly integer arithmetic on day
ordinals); inventory item ids are strings; quantities are unbounded
integers (Python `int`).
-/

namespace SyncStock

/-- A computed ledger row `(day, iid, p, s, on_hand)` as appended by
`roll_forward` in `syncstock.py`. -/
structure LedgerRow where
  day : Int
  item : String
  purchased : Int
  sold : Int
  on_hand_end : Int
deriving DecidableEq, Repr

/-- The merged `(day, item) ↦ ("p" = …, "s" = …)` dictionary produced by
`merge_daily`: a missing key is `none` (and is read back as zero in
`roll_forward` via `dict.get((day,iid),...).get("p",0)`). -/
def MergedMap : Type := Int → String → Option (Int × Int)

/-- Model of `by.get((day,iid),...).get("p",0)` in `roll_forward`. -/
def mergedP (m : MergedMap) (d : Int) (i : String) : Int :=
  ((m d i).getD (0, 0)).1

/-- Model of `by.get((day,iid),...).get("s",0)` in `roll_forward`. -/
def mergedS (m : MergedMap) (d : Int) (i : String) : Int :=
  ((m d i).getD (0, 0)).2

/-- The inner `for iid in items` loop of `roll_forward`: one day's pass over
the items, threading the mutable `on_hand` dict and appending one row per
item.  Returns the updated balances and the appended rows. -/
def rollItems (m : MergedMap) (d : Int) (onHand : String → Int) :
    List String → (String → Int) × List LedgerRow
  | [] => (onHand, [])
  | i :: rest =>
    let p := mergedP m d i
    let s := mergedS m d i
    let bal := onHand i + p - s
    let onHand' : String → Int := fun j => if j = i then bal else onHand j
    let out := rollItems m d onHand' rest
    (out.1, ⟨d, i, p, s, bal⟩ :: out.2)

/-- The outer `while day < end` loop of `roll_forward`, with the day count
`(end - start).days` made explicit as recursion fuel. -/
def rollDays (m : MergedMap) (items : List String) :
    Int → Nat → (String → Int) → List LedgerRow
  | _, 0, _ => []
  | d, n + 1, onHand =>
    let out := rollItems m d onHand items
    out.2 ++ rollDays m items (d + 1) n out.1

/-- Model of `roll_forward(start, end, items, by, opening)` from `syncstock.py`:
initialize `on_hand[iid] = opening.get(iid, 0)` and walk the window
day by day. -/
def roll_forward (start end_ : Int) (items : List String) (m : MergedMap)
    (opening : String → Option Int) : List LedgerRow :=
  rollDays m items start (end_ - start).toNat (fun i => (opening i).getD 0)

/-- Net daily delta `purchased - sold` for item `i` on day `d`. -/
def delta (m : MergedMap) (d : Int) (i : String) : Int :=
  mergedP m d i - mergedS m d i

/-- Closed form of the running balance: `balClosed m h0 s i k` is the
balance of item `i` after the first `k` days of a window starting at day
`s`, when the balances started at `h0`. -/
def balClosed (m : MergedMap) (h0 : String → Int) (s : Int) (i : String) :
    Nat → Int
  | 0 => h0 i
  | k + 1 => balClosed m h0 s i k + delta m (s + (k : Int)) i

theorem balClosed_shift (m : MergedMap) (h0 h1 : String → Int) (s : Int)
    (i : String) (h : h1 i = h0 i + delta m s i) (k : Nat) :
    balClosed m h1 (s + 1) i k = balClosed m h0 s i (k + 1) := by
  induction k with
  | zero => simpa [balClosed] using h
  | succ k ih =>
    show balClosed m h1 (s + 1) i k + _ = balClosed m h0 s i (k + 1) + _
    rw [ih]
    congr 1
    push_cast
    ring_nf

/-- The per-day pass emits exactly one row per list element, in order, and
(under `Nodup`) each row reads the incoming balance of its own item. -/
theorem rollItems_snd (m : MergedMap) (d : Int) (onHand : String → Int)
    (items : List String) (hnd : items.Nodup) :
    (rollItems m d onHand items).2 =
      items.map (fun i =>
        ⟨d, i, mergedP m d i, mergedS m d i, onHand i + delta m d i⟩) := by
  induction items generalizing onHand with
  | nil => rfl
  | cons i rest ih =>
    simp only [List.nodup_cons] at hnd
    simp only [rollItems, List.map_cons, List.cons.injEq]
    constructor
    · simp only [LedgerRow.mk.injEq, delta, true_and]
      ring_nf
    · rw [ih _ hnd.2]
      apply List.map_congr_left
      intro j hj
      have hji : j ≠ i := fun h => hnd.1 (h ▸ hj)
      simp [hji]

/-- The per-day pass updates exactly the balances of the listed items. -/
theorem rollItems_fst (m : MergedMap) (d : Int) (onHand : String → Int)
    (items : List String) (hnd : items.Nodup) (j : String) :
    (rollItems m d onHand items).1 j =
      if j ∈ items then onHand j + delta m d j else onHand j := by
  induction items generalizing onHand with
  | nil => simp [rollItems]
  | cons i rest ih =>
    simp only [List.nodup_cons] at hnd
    simp only [rollItems]
    rw [ih _ hnd.2]
    by_cases hji : j = i
    · subst hji
      simp only [if_pos rfl, if_neg (fun h => hnd.1 h), List.mem_cons,
        true_or, if_pos, delta]
      ring_nf
    · simp only [if_neg hji]
      by_cases hjr : j ∈ rest <;>
        simp [hjr, hji, List.mem_cons]

theorem list_flatMap_congr {α β : Type} {l : List α} {f g : α → List β}
    (h : ∀ a ∈ l, f a = g a) : l.flatMap f = l.flatMap g := by
  induction l with
  | nil => rfl
  | cons a l ih =>
    simp only [List.flatMap_cons]
    rw [h a (List.mem_cons_self a l), ih fun b hb => h b (List.mem_cons_of_mem a hb)]

/-- Full characterization of the roll-forward loop (for duplicate-free item
lists): it produces the dense day-major grid, each row carrying the
closed-form running balance of its item. -/
theorem rollDays_eq (m : MergedMap) (items : List String)
    (hnd : items.Nodup) (n : Nat) (s : Int) (h0 : String → Int) :
    rollDays m items s n h0 =
      (List.range n).flatMap (fun k =>
        items.map (fun i =>
          ⟨s + (k : Int), i, mergedP m (s + (k : Int)) i,
            mergedS m (s + (k : Int)) i, balClosed m h0 s i (k + 1)⟩)) := by
  induction n generalizing s h0 with
  | zero => rfl
  | succ n ih =>
    rw [List.range_succ_eq_map]
    simp only [rollDays, List.flatMap_cons]
    congr 1
    · rw [rollItems_snd m s h0 items hnd]
      apply List.map_congr_left
      intro i _
      simp [balClosed]
    · rw [List.flatMap_map, ih (s + 1) (rollItems m s h0 items).1]
      apply list_flatMap_congr
      intro k _
      apply List.map_congr_left
      intro i hi
      have hbal : (rollItems m s h0 items).1 i = h0 i + delta m s i := by
        rw [rollItems_fst m s h0 items hnd i, if_pos hi]
      simp only [Function.comp, LedgerRow.mk.injEq]
      have harg : s + 1 + (k : Int) = s + ((k + 1 : Nat) : Int) := by
        push_cast; ring
      refine ⟨harg, trivial, by rw [harg], by rw [harg], ?_⟩
      rw [balClosed_shift m h0 _ s i hbal (k + 1)]

/-- Membership characterization of `roll_forward` output rows: each row sits
at some day offset `k` inside the window, belongs to a listed item, and
carries the merged quantities and closed-form balance of that (day, item). -/
theorem mem_roll_forward (start end_ : Int) (items : List String)
    (m : MergedMap) (opening : String → Option Int) (hnd : items.Nodup)
    (r : LedgerRow) (hr : r ∈ roll_forward start end_ items m opening) :
    ∃ k : Nat, k < (end_ - start).toNat ∧ r.day = start + (k : Int) ∧
      r.item ∈ items ∧ r.purchased = mergedP m r.day r.item ∧
      r.sold = mergedS m r.day r.item ∧
      r.on_hand_end =
        balClosed m (fun i => (opening i).getD 0) start r.item (k + 1) := by
  rw [roll_forward, rollDays_eq m items hnd] at hr
  rw [List.mem_flatMap] at hr
  obtain ⟨k, hk, hr⟩ := hr
  rw [List.mem_map] at hr
  obtain ⟨i, hi, hgi⟩ := hr
  refine ⟨k, List.mem_range.mp hk, ?_⟩
  rw [← hgi]
  exact ⟨rfl, hi, rfl, rfl, rfl⟩

theorem length_flatMap_const {β : Type} (n : Nat) (F : Nat → List β)
    (c : Nat) (h : ∀ k, (F k).length = c) :
    ((List.range n).flatMap F).length = n * c := by
  induction n with
  | zero => simp
  | succ n ih =>
    rw [List.range_succ, List.flatMap_append, List.length_append, ih]
    simp only [List.flatMap_cons, List.flatMap_nil, List.append_nil, h n]
    ring_nf

theorem countP_flatMap {α β : Type} (p : β → Bool) (l : List α)
    (f : α → List β) :
    (l.flatMap f).countP p = (l.map fun a => (f a).countP p).sum := by
  induction l with
  | nil => rfl
  | cons a l ih => simp [List.flatMap_cons, List.countP_append, ih]

theorem sum_map_range_zero {c : Nat → Nat} (n kd : Nat)
    (h : ∀ k < n, k ≠ kd → c k = 0) (hout : kd < n → False) :
    ((List.range n).map c).sum = 0 := by
  induction n with
  | zero => rfl
  | succ n ih =>
    rw [List.range_succ]
    simp only [List.map_append, List.sum_append, List.map_cons, List.map_nil,
      List.sum_cons, List.sum_nil]
    rw [ih (fun k hk => h k (Nat.lt_succ_of_lt hk))
      (fun hlt => hout (Nat.lt_succ_of_lt hlt))]
    have : n ≠ kd := fun he => hout (he ▸ Nat.lt_succ_self n)
    rw [h n (Nat.lt_succ_self n) this]
    simp

theorem sum_map_range_single {c : Nat → Nat} (n kd : Nat) (hkd : kd < n)
    (h : ∀ k < n, k ≠ kd → c k = 0) :
    ((List.range n).map c).sum = c kd := by
  induction n with
  | zero => exact absurd hkd (Nat.not_lt_zero kd)
  | succ n ih =>
    rw [List.range_succ]
    simp only [List.map_append, List.sum_append, List.map_cons, List.map_nil,
      List.sum_cons, List.sum_nil]
    rcases Nat.lt_or_ge kd n with hlt | hge
    · rw [ih hlt (fun k hk hne => h k (Nat.lt_succ_of_lt hk) hne)]
      have : n ≠ kd := fun he => absurd (he ▸ hlt) (Nat.lt_irrefl n)
      rw [h n (Nat.lt_succ_self n) this]
      simp
    · have hekd : kd = n := Nat.le_antisymm (Nat.lt_succ_iff.mp hkd) hge
      subst hekd
      rw [sum_map_range_zero kd kd (fun k hk hne => h k (Nat.lt_succ_of_lt hk) hne)
        (fun hcon => absurd hcon (Nat.lt_irrefl kd))]
      simp

/-- **C3.** Dense grid: for every window `[start, end)` with `start < end`
and every duplicate-free touched item list, `roll_forward` produces exactly
`|days| × |items|` rows; every row lies inside the window on a touched item,
and every (day, item) pair of the grid is covered by exactly one row —
nothing duplicated, nothing omitted, including items with zero activity. -/
theorem C3_dense_grid (start end_ : Int) (items : List String)
    (m : MergedMap) (opening : String → Option Int)
    (hlt : start < end_) (hnd : items.Nodup) :
    (roll_forward start end_ items m opening).length
        = (end_ - start).toNat * items.length
  ∧ (∀ r ∈ roll_forward start end_ items m opening,
        start ≤ r.day ∧ r.day < end_ ∧ r.item ∈ items)
  ∧ ∀ d i, start ≤ d → d < end_ → i ∈ items →
      (roll_forward start end_ items m opening).countP
          (fun r => r.day == d && r.item == i) = 1 := by
  refine ⟨?_, ?_, ?_⟩
  · rw [roll_forward, rollDays_eq m items hnd]
    rw [length_flatMap_const _ _ items.length (fun k => List.length_map items _)]
  · intro r hr
    obtain ⟨k, hk, hday, hitem, -⟩ :=
      mem_roll_forward start end_ items m opening hnd r hr
    refine ⟨?_, ?_, hitem⟩
    · rw [hday]; omega
    · rw [hday]; omega
  · intro d i hd1 hd2 hi
    rw [roll_forward, rollDays_eq m items hnd]
    rw [countP_flatMap]
    have hn : (d - start).toNat < (end_ - start).toNat := by omega
    have key : ∀ k < (end_ - start).toNat, k ≠ (d - start).toNat →
        ((items.map fun i' =>
          (⟨start + (k : Int), i', mergedP m (start + (k : Int)) i',
            mergedS m (start + (k : Int)) i',
            balClosed m (fun j => (opening j).getD 0) start i' (k + 1)⟩ :
              LedgerRow)).countP
          (fun r => r.day == d && r.item == i)) = 0 := by
      intro k _ hne
      rw [List.countP_map]
      apply List.countP_eq_zero.mpr
      intro i' _
      have : ¬ (start + (k : Int) = d) := by omega
      simp [Function.comp, this]
    rw [sum_map_range_single _ _ hn key]
    rw [List.countP_map]
    have hday : start + ((d - start).toNat : Int) = d := by omega
    calc (items.countP fun i' =>
            (fun r => r.day == d && r.item == i)
              ((fun i' => (⟨start + ((d - start).toNat : Int), i',
                mergedP m (start + ((d - start).toNat : Int)) i',
                mergedS m (start + ((d - start).toNat : Int)) i',
                balClosed m (fun j => (opening j).getD 0) start i'
                  ((d - start).toNat + 1)⟩ : LedgerRow)) i'))
        = items.countP (fun i' => i' == i) := by
          apply List.countP_congr
          intro i' _
          show ((start + ((d - start).toNat : Int) == d && (i' == i)) = true)
            ↔ ((i' == i) = true)
          rw [hday]
          simp
      _ = items.count i := by rw [List.count]
      _ = 1 := List.count_eq_one_of_mem hnd hi

/-- **C1.** Roll-forward balance recurrence: in any window with
`start < end`, for any touched item `i`, the row on the first day closes at
the opening balance (default 0) plus that day's purchased minus sold, and
any two rows of `i` on consecutive days `d`, `d+1` satisfy
`on_hand_end(d+1) = on_hand_end(d) + purchased(d+1) - sold(d+1)`; a
(day, item) key missing from the merged map counts as zero activity, and
negative balances are never clamped (balances live in `Int`). -/
theorem C1_balance_recurrence (start end_ : Int) (items : List String)
    (m : MergedMap) (opening : String → Option Int)
    (hlt : start < end_) (hnd : items.Nodup) (i : String) (hi : i ∈ items) :
    (∀ r ∈ roll_forward start end_ items m opening,
        r.day = start → r.item = i →
        r.on_hand_end = (opening i).getD 0 + mergedP m start i
          - mergedS m start i)
  ∧ (∀ (d : Int) (r r' : LedgerRow),
        r ∈ roll_forward start end_ items m opening →
        r' ∈ roll_forward start end_ items m opening →
        r.day = d → r'.day = d + 1 → r.item = i → r'.item = i →
        r'.on_hand_end = r.on_hand_end + mergedP m (d + 1) i
          - mergedS m (d + 1) i) := by
  constructor
  · intro r hr hday hitem
    obtain ⟨k, hk, hkday, -, -, -, hbal⟩ :=
      mem_roll_forward start end_ items m opening hnd r hr
    have hk0 : k = 0 := by omega
    subst hk0
    rw [hbal, hitem]
    simp only [balClosed, delta, Nat.cast_zero, add_zero]
    ring_nf
  · intro d r r' hr hr' hday hday' hitem hitem'
    obtain ⟨k, hk, hkday, -, -, -, hbal⟩ :=
      mem_roll_forward start end_ items m opening hnd r hr
    obtain ⟨k', hk', hkday', -, -, -, hbal'⟩ :=
      mem_roll_forward start end_ items m opening hnd r' hr'
    have hkk : k' = k + 1 := by omega
    subst hkk
    rw [hbal, hbal', hitem, hitem']
    show balClosed m _ start i (k + 1)
        + delta m (start + ((k + 1 : Nat) : Int)) i = _
    have harg : start + ((k + 1 : Nat) : Int) = d + 1 := by push_cast; omega
    rw [harg]
    simp only [delta]
    ring_nf

/-- Example merged map for the concrete scenario: item `X` has
`purchased = 5`, `sold = 2` on day `0`. -/
def exMerged : MergedMap :=
  fun d i => if d = 0 ∧ i = "X" then some (5, 2) else none

/-- Example opening balances: item `X` opens at `10`. -/
def exOpening : String → Option Int :=
  fun i => if i = "X" then some 10 else none

theorem C1_balance_recurrence_witness :
    ((0 : Int) < 1 ∧ (["X"] : List String).Nodup ∧ "X" ∈ ["X"]
      ∧ roll_forward 0 1 ["X"] exMerged exOpening = [⟨0, "X", 5, 2, 13⟩])
  ∧ ((∀ r ∈ roll_forward 0 1 ["X"] exMerged exOpening,
        r.day = 0 → r.item = "X" →
        r.on_hand_end = (exOpening "X").getD 0 + mergedP exMerged 0 "X"
          - mergedS exMerged 0 "X")
    ∧ (∀ (d : Int) (r r' : LedgerRow),
        r ∈ roll_forward 0 1 ["X"] exMerged exOpening →
        r' ∈ roll_forward 0 1 ["X"] exMerged exOpening →
        r.day = d → r'.day = d + 1 → r.item = "X" → r'.item = "X" →
        r'.on_hand_end = r.on_hand_end + mergedP exMerged (d + 1) "X"
          - mergedS exMerged (d + 1) "X")) :=
  ⟨⟨by decide, by decide, by decide, by decide⟩,
    C1_balance_recurrence 0 1 ["X"] exMerged exOpening
      (by decide) (by decide) "X" (by decide)⟩

theorem C3_dense_grid_witness :
    ((0 : Int) < 2 ∧ (["A", "B"] : List String).Nodup
      ∧ (roll_forward 0 2 ["A", "B"] exMerged exOpening).length = 4)
  ∧ ((roll_forward 0 2 ["A", "B"] exMerged exOpening).length
        = (2 - 0 : Int).toNat * (["A", "B"] : List String).length
    ∧ (∀ r ∈ roll_forward 0 2 ["A", "B"] exMerged exOpening,
        0 ≤ r.day ∧ r.day < 2 ∧ r.item ∈ ["A", "B"])
    ∧ ∀ d i, 0 ≤ d → d < 2 → i ∈ ["A", "B"] →
        (roll_forward 0 2 ["A", "B"] exMerged exOpening).countP
            (fun r => r.day == d && r.item == i) = 1) :=
  ⟨⟨by decide, by decide, by decide⟩,
    C3_dense_grid 0 2 ["A", "B"] exMerged exOpening (by decide) (by decide)⟩

/-! ## Window selection (`pick_window`) -/

/-- Day number of a Gregorian date (Hinnant's `days_from_civil`, valid for
years ≥ 1).  Python `datetime.date` values are embedded as their day
numbers; `timedelta(days = n)` arithmetic is then integer `+ n`. -/
def daysFromCivil (y m d : Nat) : Int :=
  let y' := if m ≤ 2 then y - 1 else y
  let era := y' / 400
  let yoe := y' - era * 400
  let mp := if 2 < m then m - 3 else m + 9
  let doy := (153 * mp + 2) / 5 + d - 1
  let doe := yoe * 365 + yoe / 4 - yoe / 100 + doy
  ((era * 146097 + doe : Nat) : Int) - 719468

/-- Model of `pick_window(cur, user_lookback_start)` from `syncstock.py`, with its
two database reads (`current_date` and the watermark row, which may hold no
date) passed in as values.  A `date` object is always truthy in Python, so
the `if user_lookback_start:` / `if last_done:` tests are `Option`
matches. -/
def pick_window (user_lookback_start : Option Int) (last_done : Option Int)
    (today : Int) : Int × Int :=
  let start :=
    match user_lookback_start with
    | some u => u
    | none =>
      match last_done with
      | some ld => ld + 1
      | none => today - 30
  (start, today + 1)

/-- **C2.** Window selection policy: `end` is always `today + 1`; `start`
is the caller-supplied date verbatim when given (the watermark is never
consulted), else watermark day + 1, else `today - 30` on first run; and a
first-ever run with today = 2025-03-10 yields [2025-02-08, 2025-03-11). -/
theorem C2_window_policy (user last_done : Option Int) (today : Int) :
    ((pick_window user last_done today).2 = today + 1)
  ∧ (∀ u, user = some u → (pick_window user last_done today).1 = u)
  ∧ (user = none → ∀ w, last_done = some w →
      (pick_window user last_done today).1 = w + 1)
  ∧ (user = none → last_done = none →
      (pick_window user last_done today).1 = today - 30)
  ∧ pick_window none none (daysFromCivil 2025 3 10)
      = (daysFromCivil 2025 2 8, daysFromCivil 2025 3 11) := by
  refine ⟨rfl, ?_, ?_, ?_, by decide⟩
  · intro u hu; subst hu; rfl
  · intro hu w hw; subst hu; subst hw; rfl
  · intro hu hw; subst hu; subst hw; rfl

theorem C2_window_policy_witness :
    (pick_window (some 5) (some 40) 7).1 = 5
  ∧ (pick_window none (some 9) 7).1 = 9 + 1
  ∧ (pick_window none none 7).1 = 7 - 30 :=
  ⟨(C2_window_policy (some 5) (some 40) 7).2.1 5 rfl,
   (C2_window_policy none (some 9) 7).2.2.1 rfl 9 rfl,
   (C2_window_policy none none 7).2.2.2.1 rfl rfl⟩

/-! ## Webhook payload parsing (`parse_webhook_payload`)

`json.loads` and `date.fromisoformat` are Python standard-library
collaborators, embedded as oracle parameters: `J payload = none` models a
`json.JSONDecodeError`, `F s = none` models a `ValueError` from
`date.fromisoformat`.  The control flow of `parse_webhook_payload` —
including which exceptions its `try` blocks catch — is translated
branch by branch from `syncstock.py`. -/

/-- A parsed Python JSON value. -/
inductive PyJson where
  | null
  | bool (b : Bool)
  | num (n : Int)
  | str (s : String)
  | arr (xs : List PyJson)
  | obj (fields : List (String × PyJson))

/-- Python truthiness of a JSON value (the `if start_date_str:` test). -/
def PyJson.truthy : PyJson → Bool
  | .null => false
  | .bool b => b
  | .num n => n != 0
  | .str s => s != ""
  | .arr xs => !xs.isEmpty
  | .obj fs => !fs.isEmpty

/-- Model of `data["start_date"]` on a parsed JSON object (`"start_date" in data`
determines whether this is `some`). -/
def lookupField (fs : List (String × PyJson)) (k : String) : Option PyJson :=
  (fs.find? (fun kv => kv.1 == k)).map (fun kv => kv.2)

/-- Python `str.strip()`: drop leading whitespace, then (via reversal)
trailing whitespace. -/
def dropLeadingWs : List Char → List Char
  | [] => []
  | c :: cs => if c.isWhitespace then dropLeadingWs cs else c :: cs

/-- Python `str.strip()` on a string. -/
def pyStrip (s : String) : String :=
  ⟨(dropLeadingWs (dropLeadingWs s.data).reverse).reverse⟩

/-- Exceptions that can escape `parse_webhook_payload`: only
`json.JSONDecodeError` (first block) and the bare-date `ValueError`
(second block) are caught; a `ValueError`/`TypeError` raised by
`date.fromisoformat` on a truthy JSON `start_date` propagates. -/
inductive PyExc where
  | valueError
  | typeError
deriving DecidableEq, Repr

/-- The trailing `date.fromisoformat(payload.strip())` attempt: its
`ValueError` is caught and turned into `None` after a warning. -/
def directDateParse (F : String → Option Int) (payload : String) :
    Except PyExc (Option Int) :=
  match F (pyStrip payload) with
  | some d => .ok (some d)
  | none => .ok none

/-- The `if start_date_str:` block inside the first `try` of
`parse_webhook_payload`, applied to the JSON object's `start_date` value:
a falsy value returns `None`; a truthy value is handed to
`date.fromisoformat`, whose `ValueError` (bad ISO string) or `TypeError`
(non-string) is *not* caught by `except json.JSONDecodeError`. -/
def handleStartDate (F : String → Option Int) (v : PyJson) :
    Except PyExc (Option Int) :=
  if v.truthy then
    match v with
    | .str s =>
      match F s with
      | some d => .ok (some d)
      | none => .error .valueError
    | _ => .error .typeError
  else .ok none

/-- Model of `parse_webhook_payload(payload)` from `syncstock.py`, with `json.loads`
(`J`) and `date.fromisoformat` (`F`) as oracles.  A JSON result that is not
an object holding the `"start_date"` key falls out of the `try` block into
the bare-date attempt, exactly as the Python control flow does. -/
def parse_webhook_payload (J : String → Option PyJson)
    (F : String → Option Int) (payload : String) :
    Except PyExc (Option Int) :=
  if pyStrip payload = "" then .ok none
  else
    match J payload with
    | some (.obj fs) =>
      match lookupField fs "start_date" with
      | some v => handleStartDate F v
      | none => directDateParse F payload
    | some _ => directDateParse F payload
    | none => directDateParse F payload

/-- Whether `handleStartDate` raises: the value is truthy yet not a string
accepted by `date.fromisoformat`. -/
def startDateRaises (F : String → Option Int) (v : PyJson) : Bool :=
  v.truthy && (match v with | .str s => (F s).isNone | _ => true)

/-- The exact condition under which `parse_webhook_payload` raises: the
payload parses as a JSON object whose `"start_date"` field is truthy and
is not a string that `date.fromisoformat` accepts. -/
def raisesOnStartDate (J : String → Option PyJson)
    (F : String → Option Int) (p : String) : Bool :=
  if pyStrip p = "" then false
  else
    match J p with
    | some (.obj fs) =>
      match lookupField fs "start_date" with
      | some v => startDateRaises F v
      | none => false
    | some _ => false
    | none => false

theorem handleStartDate_ok (F : String → Option Int) (v : PyJson)
    (h : startDateRaises F v = false) :
    ∃ r, handleStartDate F v = .ok r := by
  cases v with
  | str s =>
    cases hd : F s with
    | none =>
      simp [startDateRaises, hd, PyJson.truthy] at h
      subst h
      exact ⟨none, by simp [handleStartDate, PyJson.truthy]⟩
    | some d =>
      by_cases htr : (PyJson.str s).truthy <;>
        simp [handleStartDate, htr, hd]
  | null => simp [handleStartDate, PyJson.truthy]
  | bool b =>
    simp [startDateRaises, PyJson.truthy] at h
    simp [handleStartDate, PyJson.truthy, h]
  | num n =>
    simp [startDateRaises, PyJson.truthy] at h
    simp [handleStartDate, PyJson.truthy, h]
  | arr xs =>
    simp [startDateRaises, PyJson.truthy] at h
    simp [handleStartDate, PyJson.truthy, h]
  | obj fs =>
    simp [startDateRaises, PyJson.truthy] at h
    simp [handleStartDate, PyJson.truthy, h]

theorem handleStartDate_error (F : String → Option Int) (v : PyJson)
    (h : startDateRaises F v = true) :
    ∃ e, handleStartDate F v = .error e := by
  cases v with
  | str s =>
    simp only [startDateRaises, PyJson.truthy, Bool.and_eq_true] at h
    have hd : F s = none := Option.isNone_iff_eq_none.mp h.2
    exact ⟨.valueError, by simp [handleStartDate, PyJson.truthy, h.1, hd]⟩
  | null => simp [startDateRaises, PyJson.truthy] at h
  | bool b =>
    simp [startDateRaises, PyJson.truthy] at h
    exact ⟨.typeError, by simp [handleStartDate, PyJson.truthy, h]⟩
  | num n =>
    simp [startDateRaises, PyJson.truthy] at h
    exact ⟨.typeError, by simp [handleStartDate, PyJson.truthy, h]⟩
  | arr xs =>
    simp [startDateRaises, PyJson.truthy] at h
    exact ⟨.typeError, by simp [handleStartDate, PyJson.truthy, h]⟩
  | obj fs =>
    simp [startDateRaises, PyJson.truthy] at h
    exact ⟨.typeError, by simp [handleStartDate, PyJson.truthy, h]⟩

theorem directDateParse_ok (F : String → Option Int) (p : String) :
    ∃ r, directDateParse F p = .ok r := by
  cases h : F (pyStrip p) <;> simp [directDateParse, h]

/-- Model of `json.loads` on the malformed-date payload
`{"start_date": "bogus"}` (braces escaped), as Python parses it. -/
def exJsonLoadsBad : String → Option PyJson := fun s =>
  if s = "\x7b\"start_date\": \"bogus\"\x7d" then
    some (.obj [("start_date", .str "bogus")])
  else none

/-- Model of `date.fromisoformat` rejecting `"bogus"` (and everything else). -/
def exFromIsoBad : String → Option Int := fun _ => none

/-- **C4, counterexample.** The payload `{"start_date": "bogus"}` parses as
JSON, but `date.fromisoformat("bogus")` raises `ValueError`, which the code
does not catch (its `except` clause only catches `json.JSONDecodeError`):
`parse_webhook_payload` raises instead of returning `None`. -/
theorem C4_payload_counterexample :
    parse_webhook_payload exJsonLoadsBad exFromIsoBad
      "\x7b\"start_date\": \"bogus\"\x7d" = .error .valueError := by
  rfl

/-- **C4, amended.** `parse_webhook_payload` never raises — returning
`None` for empty/whitespace payloads, `None` for a JSON object with falsy
(null/empty) `start_date`, the parsed date for a JSON object with a valid
ISO `start_date` or a bare ISO date, and `None` (after a warning) for
other malformed payloads — **except** when the payload is a JSON object
whose `start_date` is truthy and not a valid ISO date string, in which
case an uncaught `ValueError`/`TypeError` propagates. -/
theorem C4_payload_totality (J : String → Option PyJson)
    (F : String → Option Int) (p : String) :
    (pyStrip p = "" → parse_webhook_payload J F p = .ok none)
  ∧ (∀ fs v, J p = some (.obj fs) →
      lookupField fs "start_date" = some v → v.truthy = false →
      parse_webhook_payload J F p = .ok none)
  ∧ (∀ fs s d, J p = some (.obj fs) →
      lookupField fs "start_date" = some (.str s) → pyStrip p ≠ "" →
      (PyJson.str s).truthy = true → F s = some d →
      parse_webhook_payload J F p = .ok (some d))
  ∧ (J p = none → pyStrip p ≠ "" → ∀ d, F (pyStrip p) = some d →
      parse_webhook_payload J F p = .ok (some d))
  ∧ (raisesOnStartDate J F p = false →
      ∃ r, parse_webhook_payload J F p = .ok r)
  ∧ (raisesOnStartDate J F p = true →
      ∃ e, parse_webhook_payload J F p = .error e) := by
  refine ⟨?_, ?_, ?_, ?_, ?_, ?_⟩
  · intro h
    simp [parse_webhook_payload, h]
  · intro fs v hJ hlk htr
    by_cases hp : pyStrip p = ""
    · simp [parse_webhook_payload, hp]
    · simp [parse_webhook_payload, hp, hJ, hlk, handleStartDate, htr]
  · intro fs s d hJ hlk hp htr hF
    simp [parse_webhook_payload, hp, hJ, hlk, handleStartDate, htr, hF]
  · intro hJ hp d hF
    simp [parse_webhook_payload, hp, hJ, directDateParse, hF]
  · intro hok
    by_cases hp : pyStrip p = ""
    · exact ⟨none, by simp [parse_webhook_payload, hp]⟩
    · cases hJ : J p with
      | none =>
        simp only [parse_webhook_payload, if_neg hp, hJ]
        exact directDateParse_ok F p
      | some j =>
        cases j with
        | obj fs =>
          cases hlk : lookupField fs "start_date" with
          | none =>
            simp only [parse_webhook_payload, if_neg hp, hJ, hlk]
            exact directDateParse_ok F p
          | some v =>
            simp only [parse_webhook_payload, if_neg hp, hJ, hlk]
            simp only [raisesOnStartDate, if_neg hp, hJ, hlk] at hok
            exact handleStartDate_ok F v hok
        | null =>
          simp only [parse_webhook_payload, if_neg hp, hJ]
          exact directDateParse_ok F p
        | bool b =>
          simp only [parse_webhook_payload, if_neg hp, hJ]
          exact directDateParse_ok F p
        | num n =>
          simp only [parse_webhook_payload, if_neg hp, hJ]
          exact directDateParse_ok F p
        | str s =>
          simp only [parse_webhook_payload, if_neg hp, hJ]
          exact directDateParse_ok F p
        | arr xs =>
          simp only [parse_webhook_payload, if_neg hp, hJ]
          exact directDateParse_ok F p
  · intro hraise
    by_cases hp : pyStrip p = ""
    · simp [raisesOnStartDate, hp] at hraise
    · cases hJ : J p with
      | none => simp [raisesOnStartDate, if_neg hp, hJ] at hraise
      | some j =>
        cases j with
        | obj fs =>
          cases hlk : lookupField fs "start_date" with
          | none => simp [raisesOnStartDate, if_neg hp, hJ, hlk] at hraise
          | some v =>
            simp only [raisesOnStartDate, if_neg hp, hJ, hlk] at hraise
            simp only [parse_webhook_payload, if_neg hp, hJ, hlk]
            exact handleStartDate_error F v hraise
        | null => simp [raisesOnStartDate, if_neg hp, hJ] at hraise
        | bool b => simp [raisesOnStartDate, if_neg hp, hJ] at hraise
        | num n => simp [raisesOnStartDate, if_neg hp, hJ] at hraise
        | str s => simp [raisesOnStartDate, if_neg hp, hJ] at hraise
        | arr xs => simp [raisesOnStartDate, if_neg hp, hJ] at hraise

/-- Model of `json.loads` on the well-formed payload
`{"start_date": "2025-08-01"}`, as Python parses it. -/
def exJsonLoadsGood : String → Option PyJson := fun s =>
  if s = "\x7b\"start_date\": \"2025-08-01\"\x7d" then
    some (.obj [("start_date", .str "2025-08-01")])
  else none

/-- Model of `date.fromisoformat` accepting exactly `"2025-08-01"`. -/
def exFromIsoGood : String → Option Int := fun s =>
  if s = "2025-08-01" then some (daysFromCivil 2025 8 1) else none

theorem C4_payload_totality_witness :
    parse_webhook_payload exJsonLoadsGood exFromIsoGood
        "\x7b\"start_date\": \"2025-08-01\"\x7d"
      = .ok (some (daysFromCivil 2025 8 1)) :=
  (C4_payload_totality exJsonLoadsGood exFromIsoGood
      "\x7b\"start_date\": \"2025-08-01\"\x7d").2.2.1
    [("start_date", .str "2025-08-01")] "2025-08-01" (daysFromCivil 2025 8 1)
    rfl rfl (by decide) (by decide) rfl

/-! ## Raw aggregate fetching and catalog filtering (`fetch_daily`)

The two window queries (`sql_daily_purchases`, `sql_daily_sales`) run on
the external store; their result rows are inputs here.  The validation
query `SELECT id FROM store_data.inventory_items WHERE id IN (chunk)` is
modelled as filtering a chunk by membership in the catalog value. -/

/-- A raw aggregate row `{day, inventory_id, quantity}` as returned by the
daily purchase/sales queries; the summed quantity may be SQL `NULL`. -/
structure RawRow where
  day : Int
  inventory_id : String
  qty : Option Int
deriving DecidableEq, Repr

/-- The slicing loop `for i in range(0, len(id_list), chunk_size)` with
`chunk_size = 1000`, made structural with fuel (`fuel = length` suffices
since every step consumes at least one element). -/
def chunksGo (fuel : Nat) (xs : List String) : List (List String) :=
  match fuel, xs with
  | _, [] => []
  | 0, _ => []
  | f + 1, xs => xs.take 1000 :: chunksGo f (xs.drop 1000)

/-- Model of `id_list` sliced into chunks of (at most) 1000 identifiers. -/
def chunks1000 (xs : List String) : List (List String) :=
  chunksGo xs.length xs

/-- The `all_ids` set: every truthy `inventory_id` occurring in either row
sequence (Python set ↦ deduplicated list; `if row["inventory_id"]:` keeps
only non-empty ids). -/
def allIds (p s : List RawRow) : List String :=
  (((p ++ s).map (fun r => r.inventory_id)).filter (fun i => i != "")).dedup

/-- The `valid_ids` set accumulated chunk by chunk from the validation
queries. -/
def validIds (catalog : List String) (ids : List String) : List String :=
  (chunks1000 ids).flatMap (fun chunk => chunk.filter (catalog.contains ·))

/-- Model of `fetch_daily` from `syncstock.py`, given the master catalog and the two
query result sequences: validate ids in chunks, filter both sequences —
unless no row carried a truthy id, in which case the sequences are
returned unfiltered (`return p, s` after the skipped `if all_ids:`). -/
def fetch_daily (catalog : List String) (p s : List RawRow) :
    List RawRow × List RawRow :=
  let all_ids := allIds p s
  if all_ids.isEmpty then (p, s)
  else
    let valid_ids := validIds catalog all_ids
    (p.filter (fun r => valid_ids.contains r.inventory_id),
     s.filter (fun r => valid_ids.contains r.inventory_id))

theorem chunksGo_length_le (fuel : Nat) (xs : List String) :
    ∀ c ∈ chunksGo fuel xs, c.length ≤ 1000 := by
  induction fuel generalizing xs with
  | zero =>
    intro c hc
    cases xs <;> simp [chunksGo] at hc
  | succ f ih =>
    intro c hc
    cases xs with
    | nil => simp [chunksGo] at hc
    | cons x rest =>
      simp only [chunksGo, List.mem_cons] at hc
      rcases hc with rfl | hc
      · exact List.length_take_le 1000 (x :: rest)
      · exact ih _ _ hc

theorem chunksGo_flatten (fuel : Nat) (xs : List String)
    (h : xs.length ≤ fuel) :
    (chunksGo fuel xs).flatMap (fun c => c) = xs := by
  induction fuel generalizing xs with
  | zero =>
    have hnil : xs = [] := List.eq_nil_of_length_eq_zero (Nat.le_zero.mp h)
    subst hnil
    rfl
  | succ f ih =>
    cases xs with
    | nil => rfl
    | cons x rest =>
      simp only [chunksGo, List.flatMap_cons]
      rw [ih ((x :: rest).drop 1000)
        (by simp only [List.length_drop, List.length_cons]
            simp only [List.length_cons] at h
            omega)]
      exact List.take_append_drop 1000 (x :: rest)

theorem mem_validIds (catalog ids : List String) (a : String) :
    a ∈ validIds catalog ids ↔ a ∈ ids ∧ a ∈ catalog := by
  unfold validIds
  rw [List.mem_flatMap]
  constructor
  · rintro ⟨c, hc, hac⟩
    rw [List.mem_filter] at hac
    refine ⟨?_, by simpa using hac.2⟩
    have hmem : a ∈ (chunks1000 ids).flatMap (fun c => c) :=
      List.mem_flatMap.mpr ⟨c, hc, hac.1⟩
    rwa [chunks1000, chunksGo_flatten ids.length ids (Nat.le_refl _)] at hmem
  · rintro ⟨hid, hcat⟩
    have hmem : a ∈ (chunks1000 ids).flatMap (fun c => c) := by
      rw [chunks1000, chunksGo_flatten ids.length ids (Nat.le_refl _)]
      exact hid
    obtain ⟨c, hc, hac⟩ := List.mem_flatMap.mp hmem
    exact ⟨c, hc, List.mem_filter.mpr ⟨hac, by simpa using hcat⟩⟩

theorem mem_allIds (p s : List RawRow) (i : String) :
    i ∈ allIds p s ↔ (∃ r, (r ∈ p ∨ r ∈ s) ∧ r.inventory_id = i) ∧ i ≠ "" := by
  simp only [allIds, List.mem_dedup, List.mem_filter, List.mem_map,
    List.mem_append, bne_iff_ne]

/-- **C5, counterexample.** When *no* row carries a truthy inventory id,
`all_ids` is empty and `fetch_daily` returns both sequences *unfiltered*
(`return p, s`): a purchase row whose `inventory_id` is the empty string
survives even though it is absent from the catalog, so the claim "the
returned sequences contain only rows whose inventory_id is in the catalog"
fails for every such input. -/
theorem C5_catalog_filtering_counterexample :
    ¬ (∀ r ∈ (fetch_daily [] [⟨0, "", some 1⟩] []).1,
        r.inventory_id ∈ ([] : List String)) := by
  decide

/-- **C5, amended.** Whenever at least one row carries a truthy (non-empty)
inventory id, both sequences returned by `fetch_daily` contain only rows
whose id is in the master catalog; every row with a truthy id present in
the catalog is kept (dropping is exactly the complement, never failing the
run); and the catalog lookup is chunked, every chunk holding at most 1000
identifiers.  (If no row carries a truthy id, the sequences pass through
unfiltered — the case the counterexample exhibits.) -/
theorem C5_catalog_filtering (catalog : List String) (p s : List RawRow)
    (h : allIds p s ≠ []) :
    (∀ r ∈ (fetch_daily catalog p s).1, r.inventory_id ∈ catalog)
  ∧ (∀ r ∈ (fetch_daily catalog p s).2, r.inventory_id ∈ catalog)
  ∧ (∀ r ∈ p, r.inventory_id ∈ catalog → r.inventory_id ≠ "" →
      r ∈ (fetch_daily catalog p s).1)
  ∧ (∀ r ∈ s, r.inventory_id ∈ catalog → r.inventory_id ≠ "" →
      r ∈ (fetch_daily catalog p s).2)
  ∧ (∀ c ∈ chunks1000 (allIds p s), c.length ≤ 1000) := by
  have hne : ¬ ((allIds p s).isEmpty = true) := by
    simpa [List.isEmpty_iff] using h
  have hfd : fetch_daily catalog p s =
      (p.filter (fun r =>
          (validIds catalog (allIds p s)).contains r.inventory_id),
       s.filter (fun r =>
          (validIds catalog (allIds p s)).contains r.inventory_id)) := by
    rw [fetch_daily]
    simp only [if_neg hne]
  refine ⟨?_, ?_, ?_, ?_, fun c hc => chunksGo_length_le _ _ c hc⟩
  · intro r hr
    rw [hfd] at hr
    rw [List.mem_filter] at hr
    have : r.inventory_id ∈ validIds catalog (allIds p s) := by
      simpa using hr.2
    exact ((mem_validIds _ _ _).mp this).2
  · intro r hr
    rw [hfd] at hr
    rw [List.mem_filter] at hr
    have : r.inventory_id ∈ validIds catalog (allIds p s) := by
      simpa using hr.2
    exact ((mem_validIds _ _ _).mp this).2
  · intro r hr hcat hid
    rw [hfd]
    refine List.mem_filter.mpr ⟨hr, ?_⟩
    have : r.inventory_id ∈ validIds catalog (allIds p s) :=
      (mem_validIds _ _ _).mpr
        ⟨(mem_allIds p s _).mpr ⟨⟨r, Or.inl hr, rfl⟩, hid⟩, hcat⟩
    simpa using this
  · intro r hr hcat hid
    rw [hfd]
    refine List.mem_filter.mpr ⟨hr, ?_⟩
    have : r.inventory_id ∈ validIds catalog (allIds p s) :=
      (mem_validIds _ _ _).mpr
        ⟨(mem_allIds p s _).mpr ⟨⟨r, Or.inr hr, rfl⟩, hid⟩, hcat⟩
    simpa using this

theorem C5_catalog_filtering_witness :
    (allIds [⟨0, "A", some 2⟩, ⟨0, "Z", some 3⟩] [] ≠ []
      ∧ fetch_daily ["A"] [⟨0, "A", some 2⟩, ⟨0, "Z", some 3⟩] []
          = ([⟨0, "A", some 2⟩], []))
  ∧ ((∀ r ∈ (fetch_daily ["A"] [⟨0, "A", some 2⟩, ⟨0, "Z", some 3⟩] []).1,
        r.inventory_id ∈ ["A"])
    ∧ (∀ r ∈ (fetch_daily ["A"] [⟨0, "A", some 2⟩, ⟨0, "Z", some 3⟩] []).2,
        r.inventory_id ∈ ["A"])
    ∧ (∀ r ∈ [(⟨0, "A", some 2⟩ : RawRow), ⟨0, "Z", some 3⟩],
        r.inventory_id ∈ ["A"] → r.inventory_id ≠ "" →
        r ∈ (fetch_daily ["A"] [⟨0, "A", some 2⟩, ⟨0, "Z", some 3⟩] []).1)
    ∧ (∀ r ∈ ([] : List RawRow),
        r.inventory_id ∈ ["A"] → r.inventory_id ≠ "" →
        r ∈ (fetch_daily ["A"] [⟨0, "A", some 2⟩, ⟨0, "Z", some 3⟩] []).2)
    ∧ (∀ c ∈ chunks1000 (allIds [⟨0, "A", some 2⟩, ⟨0, "Z", some 3⟩] []),
        c.length ≤ 1000)) :=
  ⟨⟨by decide, by decide⟩,
    C5_catalog_filtering ["A"] [⟨0, "A", some 2⟩, ⟨0, "Z", some 3⟩] []
      (by decide)⟩

/-! ## Persisted state and the write transaction

The storage collaborator guarantees transaction boundaries: statements
issued after `BEGIN` act on an in-transaction state, `commit` publishes
it, `rollback` restores the pre-`BEGIN` state.  The three statements of
the write block (`sql_upsert_ledger` via `execute_values`,
`sql_advance_sales_day_watermark`, `sql_upsert_stock_from_latest_day`) are
embedded below; a failure oracle marks which statement raises (modelling a
constraint violation or connectivity loss mid-write). -/

/-- The persisted database state a run touches: the `syncstock.ledger`
table, the singleton `syncstock.meta` watermark row (`last_sales_day_done`,
`run_status`), and the `syncstock.stock` snapshot
(`inventory_id ↦ (on_hand, version)`). -/
structure DB where
  ledger : List LedgerRow
  watermark : Option Int
  run_status : String
  stock : String → Option (Int × Nat)

/-- Model of `INSERT … ON CONFLICT (order_created_date, inventory_id) DO UPDATE`
for a single ledger row: replace the conflicting row in place, else
append. -/
def upsertRow (L : List LedgerRow) (r : LedgerRow) : List LedgerRow :=
  if L.any (fun x => x.day == r.day && x.item == r.item) then
    L.map (fun x => if x.day == r.day && x.item == r.item then r else x)
  else L ++ [r]

/-- Model of `sql_upsert_ledger` over a row batch (`execute_values`): row-by-row
upsert, later rows winning on key conflicts. -/
def upsertLedger (L : List LedgerRow) (rows : List LedgerRow) :
    List LedgerRow :=
  rows.foldl upsertRow L

/-- Model of `sql_advance_sales_day_watermark`: set `last_sales_day_done` and mark
`run_status = 'SUCCESS'`. -/
def advanceWatermark (db : DB) (d : Int) : DB :=
  { db with watermark := some d, run_status := "SUCCESS" }

/-- Model of `SELECT MAX(order_created_date) FROM syncstock.ledger`. -/
def maxLedgerDay (L : List LedgerRow) : Option Int :=
  (L.map (fun r => r.day)).max?

/-- Model of `sql_upsert_stock_from_latest_day`: for every ledger row dated at the
global maximum ledger day, upsert `(on_hand_end, version + 1)` into the
stock snapshot (`COALESCE(version, 0) + 1` on insert, `version + 1` on
conflict). -/
def refreshStock (db : DB) : DB :=
  match maxLedgerDay db.ledger with
  | none => db
  | some last =>
    { db with stock := fun i =>
        match db.ledger.find? (fun r => r.day == last && r.item == i) with
        | some r =>
          some (r.on_hand_end, ((db.stock i).map (fun q => q.2)).getD 0 + 1)
        | none => db.stock i }

/-- The three statements inside the `BEGIN … conn.commit()` block. -/
inductive TxStep where
  | upsertLedgerStep
  | advanceWatermarkStep
  | refreshStockStep
deriving DecidableEq, Repr

/-- The `conn.execute("BEGIN") / try / conn.commit() / except:
conn.rollback(); raise` block of `run_daily_rollup`: with a non-empty row
set, upsert the ledger, advance the watermark to `end - 1`, refresh the
stock snapshot; with an empty row set, only advance the watermark.  The
first failing statement aborts: the transaction is rolled back (the
visible state is the pre-`BEGIN` state `db`) and the exception is
re-raised.  Returns (outcome, visible committed state). -/
def write_phase (failAt : TxStep → Bool) (db : DB)
    (ledger_rows : List LedgerRow) (watermark_date : Int) :
    Except TxStep Unit × DB :=
  if ledger_rows.isEmpty then
    if failAt .advanceWatermarkStep then (.error .advanceWatermarkStep, db)
    else (.ok (), advanceWatermark db watermark_date)
  else
    if failAt .upsertLedgerStep then (.error .upsertLedgerStep, db)
    else
      let db1 : DB := { db with ledger := upsertLedger db.ledger ledger_rows }
      if failAt .advanceWatermarkStep then (.error .advanceWatermarkStep, db)
      else
        let db2 := advanceWatermark db1 watermark_date
        if failAt .refreshStockStep then (.error .refreshStockStep, db)
        else (.ok (), refreshStock db2)

theorem write_phase_error (failAt : TxStep → Bool) (db : DB)
    (rows : List LedgerRow) (wm : Int) (e : TxStep)
    (h : (write_phase failAt db rows wm).1 = .error e) :
    (write_phase failAt db rows wm).2 = db := by
  by_cases h0 : rows.isEmpty <;>
  by_cases h1 : failAt .upsertLedgerStep <;>
  by_cases h2 : failAt .advanceWatermarkStep <;>
  by_cases h3 : failAt .refreshStockStep <;>
    simp_all [write_phase]

theorem write_phase_ok (failAt : TxStep → Bool) (db : DB)
    (rows : List LedgerRow) (wm : Int)
    (h : (write_phase failAt db rows wm).1 = .ok ()) :
    (write_phase failAt db rows wm).2 =
      if rows.isEmpty then advanceWatermark db wm
      else refreshStock (advanceWatermark
        { db with ledger := upsertLedger db.ledger rows } wm) := by
  by_cases h0 : rows.isEmpty <;>
  by_cases h1 : failAt .upsertLedgerStep <;>
  by_cases h2 : failAt .advanceWatermarkStep <;>
  by_cases h3 : failAt .refreshStockStep <;>
    simp_all [write_phase]

theorem write_phase_total (failAt : TxStep → Bool) (db : DB)
    (rows : List LedgerRow) (wm : Int) :
    (∃ e, (write_phase failAt db rows wm).1 = .error e) ∨
      (write_phase failAt db rows wm).1 = .ok () := by
  by_cases h0 : rows.isEmpty <;>
  by_cases h1 : failAt .upsertLedgerStep <;>
  by_cases h2 : failAt .advanceWatermarkStep <;>
  by_cases h3 : failAt .refreshStockStep <;>
    simp_all [write_phase]

theorem write_phase_nofail (failAt : TxStep → Bool) (db : DB)
    (rows : List LedgerRow) (wm : Int)
    (hnf : ∀ st, failAt st = false) :
    write_phase failAt db rows wm =
      (.ok (), if rows.isEmpty then advanceWatermark db wm
        else refreshStock (advanceWatermark
          { db with ledger := upsertLedger db.ledger rows } wm)) := by
  by_cases h0 : rows.isEmpty <;> simp [write_phase, hnf, h0]

/-- **C6.** Transactional atomicity: if any statement of the write
transaction raises, the whole transaction rolls back — the visible state
is exactly the pre-transaction state (in particular the watermark is not
advanced) — and the exception propagates to the caller; if none raises,
the fully-updated state is committed; the outcome is always one of these
two (no exception is swallowed). -/
theorem C6_transaction_atomicity (failAt : TxStep → Bool) (db : DB)
    (rows : List LedgerRow) (wm : Int) :
    (∀ e, (write_phase failAt db rows wm).1 = .error e →
      (write_phase failAt db rows wm).2 = db)
  ∧ (∀ e, (write_phase failAt db rows wm).1 = .error e →
      (write_phase failAt db rows wm).2.watermark = db.watermark)
  ∧ ((write_phase failAt db rows wm).1 = .ok () →
      (write_phase failAt db rows wm).2 =
        if rows.isEmpty then advanceWatermark db wm
        else refreshStock (advanceWatermark
          { db with ledger := upsertLedger db.ledger rows } wm))
  ∧ ((∃ e, (write_phase failAt db rows wm).1 = .error e) ∨
      (write_phase failAt db rows wm).1 = .ok ()) :=
  ⟨fun e he => write_phase_error failAt db rows wm e he,
   fun e he => by rw [write_phase_error failAt db rows wm e he],
   fun hok => write_phase_ok failAt db rows wm hok,
   write_phase_total failAt db rows wm⟩

/-- An empty example database. -/
def exDB : DB := ⟨[], none, "IDLE", fun _ => none⟩

/-- A failure oracle making exactly the watermark statement raise. -/
def exFailWm : TxStep → Bool := fun st => st == .advanceWatermarkStep

theorem C6_transaction_atomicity_witness :
    ((write_phase exFailWm exDB [] 0).1 = .error .advanceWatermarkStep)
  ∧ (write_phase exFailWm exDB [] 0).2 = exDB :=
  ⟨rfl, (C6_transaction_atomicity exFailWm exDB [] 0).1
    .advanceWatermarkStep rfl⟩

/-! ## Daily merging, opening balances, and the full run -/

/-- Summed (NULL ↦ 0, with a warning) quantity accumulated by
`merge_daily` for key `(d, i)` from one row stream. -/
def sumQty (rows : List RawRow) (d : Int) (i : String) : Int :=
  ((rows.filter (fun r => r.day == d && r.inventory_id == i)).map
    (fun r => r.qty.getD 0)).sum

/-- The merged `(day, item)` dictionary of `merge_daily`: a key is present
iff some purchase or sales row touched it; its value sums the purchased
and sold quantities. -/
def merge_by (p s : List RawRow) : MergedMap := fun d i =>
  if (p ++ s).any (fun r => r.day == d && r.inventory_id == i) then
    some (sumQty p d i, sumQty s d i)
  else none

/-- Insertion step of Python `sorted`. -/
def insertSorted (x : String) : List String → List String
  | [] => [x]
  | y :: ys => if x ≤ y then x :: y :: ys else y :: insertSorted x ys

/-- Python `sorted(...)` on strings (insertion sort; only membership and
duplicate-freedom matter downstream). -/
def sortStrings : List String → List String
  | [] => []
  | x :: xs => insertSorted x (sortStrings xs)

/-- Model of `sorted(items)` from `merge_daily`: the distinct item ids of every row
in either stream. -/
def merge_items (p s : List RawRow) : List String :=
  sortStrings (((p ++ s).map (fun r => r.inventory_id)).dedup)

theorem mem_insertSorted (x a : String) (l : List String) :
    a ∈ insertSorted x l ↔ a = x ∨ a ∈ l := by
  induction l with
  | nil => simp [insertSorted]
  | cons y ys ih =>
    by_cases h : x ≤ y <;>
      simp [insertSorted, h, ih, List.mem_cons] <;> tauto

theorem nodup_insertSorted (x : String) (l : List String)
    (hx : x ∉ l) (hl : l.Nodup) : (insertSorted x l).Nodup := by
  induction l with
  | nil => simp [insertSorted]
  | cons y ys ih =>
    rw [List.nodup_cons] at hl
    by_cases h : x ≤ y
    · rw [insertSorted, if_pos h, List.nodup_cons, List.nodup_cons]
      exact ⟨hx, hl⟩
    · rw [insertSorted, if_neg h, List.nodup_cons]
      constructor
      · rw [mem_insertSorted]
        rintro (rfl | hmem)
        · exact hx (List.mem_cons_self _ _)
        · exact hl.1 hmem
      · exact ih (fun hc => hx (List.mem_cons_of_mem _ hc)) hl.2

theorem mem_sortStrings (a : String) (l : List String) :
    a ∈ sortStrings l ↔ a ∈ l := by
  induction l with
  | nil => simp [sortStrings]
  | cons x xs ih => simp [sortStrings, mem_insertSorted, ih, List.mem_cons]

theorem nodup_sortStrings (l : List String) (h : l.Nodup) :
    (sortStrings l).Nodup := by
  induction l with
  | nil => simp [sortStrings]
  | cons x xs ih =>
    rw [List.nodup_cons] at h
    exact nodup_insertSorted x (sortStrings xs)
      (fun hc => h.1 ((mem_sortStrings x xs).mp hc)) (ih h.2)

theorem merge_items_nodup (p s : List RawRow) : (merge_items p s).Nodup :=
  nodup_sortStrings _ (List.nodup_dedup _)

/-- Model of `opening_balances(cur, start, items)`: the on-hand balances recorded in
the ledger exactly one day before `start`, for the touched items
(`sql_opening_on_hand_prev_day`); items with no such row are absent from
the dict (and default to 0 in `roll_forward`); with no items the query is
skipped and the dict is empty. -/
def opening_balances (ledger : List LedgerRow) (start : Int)
    (items : List String) : String → Option Int := fun i =>
  if i ∈ items then
    (ledger.find? (fun r => r.day == start - 1 && r.item == i)).map
      (fun r => r.on_hand_end)
  else none

/-- The `WHERE day >= start AND day < end` restriction of the two daily
aggregate queries: the store hands the run only rows inside the
half-open window. -/
def selectWindow (rows : List RawRow) (start end_ : Int) : List RawRow :=
  rows.filter (fun r => decide (start ≤ r.day) && decide (r.day < end_))

/-- Per-invocation environment of `run_daily_rollup`: the advisory-lock
acquisition outcome, the server date, the webhook-supplied start date, the
two source streams, the master catalog, and the write-failure oracle. -/
structure RunEnv where
  lockOk : Bool
  today : Int
  userStart : Option Int
  sourceP : List RawRow
  sourceS : List RawRow
  catalog : List String
  failAt : TxStep → Bool

/-- How an invocation of `run_daily_rollup` ends: advisory-lock contention
(clean skip), empty window (clean skip), success, or a re-raised
transaction error. -/
inductive RunResult where
  | lockBusy
  | noWork
  | ok
  | err (e : TxStep)
deriving DecidableEq, Repr

/-- Database statements a run issues, in order. -/
inductive Effect where
  | tryLock
  | readWindowMeta
  | readDailyRows
  | readOpening
  | writeLedger
  | writeWatermark
  | writeStock
  | releaseLock
deriving DecidableEq, Repr

/-- Write statements issued inside the transaction (up to and including
the failing one, which is rolled back). -/
def txAttemptEffects (failAt : TxStep → Bool) (rowsEmpty : Bool) :
    List Effect :=
  if rowsEmpty then [.writeWatermark]
  else if failAt .upsertLedgerStep then [.writeLedger]
  else if failAt .advanceWatermarkStep then [.writeLedger, .writeWatermark]
  else [.writeLedger, .writeWatermark, .writeStock]

/-- Outcome of one invocation: result code, the visible database state,
and the trace of statements issued. -/
structure RunOut where
  result : RunResult
  db : DB
  effects : List Effect

/-- The window a run processes: `pick_window` over the persisted watermark
and the server date. -/
def runWindow (env : RunEnv) (db : DB) : Int × Int :=
  pick_window env.userStart db.watermark env.today

/-- The filtered fetch results of a run: `fetch_daily` over the two
window-restricted source streams. -/
def runFetched (env : RunEnv) (db : DB) : List RawRow × List RawRow :=
  fetch_daily env.catalog
    (selectWindow env.sourceP (runWindow env db).1 (runWindow env db).2)
    (selectWindow env.sourceS (runWindow env db).1 (runWindow env db).2)

/-- The touched item list of a run (`merge_daily`'s second result). -/
def runItems (env : RunEnv) (db : DB) : List String :=
  merge_items (runFetched env db).1 (runFetched env db).2

/-- The ledger rows a run computes: merge, resolve opening balances from
the ledger row of the day before the window, roll forward. -/
def runRows (env : RunEnv) (db : DB) : List LedgerRow :=
  roll_forward (runWindow env db).1 (runWindow env db).2 (runItems env db)
    (merge_by (runFetched env db).1 (runFetched env db).2)
    (opening_balances db.ledger (runWindow env db).1 (runItems env db))

/-- Statement trace of a run that reached the transaction (the opening
query is skipped when no item was touched). -/
def runEffs (env : RunEnv) (db : DB) : List Effect :=
  [Effect.tryLock, Effect.readWindowMeta, Effect.readDailyRows]
    ++ (if (runItems env db).isEmpty then [] else [Effect.readOpening])
    ++ txAttemptEffects env.failAt (runRows env db).isEmpty
    ++ [Effect.releaseLock]

/-- Model of `run_daily_rollup` from `syncstock.py`: acquire the advisory lock
non-blockingly (failure: log and return, no further statements), pick the
window, short-circuit on an empty window, fetch/merge/resolve/roll-forward,
then run the write transaction; the advisory lock is released on every
path that acquired it (the `finally` block). -/
def run_daily_rollup (env : RunEnv) (db : DB) : RunOut :=
  if !env.lockOk then ⟨.lockBusy, db, [.tryLock]⟩
  else
    if (runWindow env db).2 ≤ (runWindow env db).1 then
      ⟨.noWork, db, [.tryLock, .readWindowMeta, .releaseLock]⟩
    else
      let tx := write_phase env.failAt db (runRows env db)
        ((runWindow env db).2 - 1)
      match tx.1 with
      | .ok _ => ⟨.ok, tx.2, runEffs env db⟩
      | .error e => ⟨.err e, tx.2, runEffs env db⟩

/-- **C9.** Advisory-lock contention is a clean no-op: when the
non-blocking acquisition reports failure, the run returns without raising
(`lockBusy`, not an error), with the database untouched and no statement
issued beyond the lock attempt itself — no window read, no fetch, no
write, and no unlock (the lock was never held). -/
theorem C9_lock_contention (env : RunEnv) (db : DB)
    (h : env.lockOk = false) :
    run_daily_rollup env db = ⟨.lockBusy, db, [.tryLock]⟩ := by
  simp [run_daily_rollup, h]

/-- An environment observing advisory-lock contention. -/
def exEnvLocked : RunEnv := ⟨false, 7, none, [], [], [], fun _ => false⟩

theorem C9_lock_contention_witness :
    run_daily_rollup exEnvLocked exDB = ⟨.lockBusy, exDB, [.tryLock]⟩ :=
  C9_lock_contention exEnvLocked exDB rfl

/-! ## Watermark behavior across runs -/

theorem refreshStock_watermark (d : DB) :
    (refreshStock d).watermark = d.watermark := by
  unfold refreshStock
  cases maxLedgerDay d.ledger <;> rfl

theorem refreshStock_run_status (d : DB) :
    (refreshStock d).run_status = d.run_status := by
  unfold refreshStock
  cases maxLedgerDay d.ledger <;> rfl

theorem refreshStock_ledger (d : DB) :
    (refreshStock d).ledger = d.ledger := by
  unfold refreshStock
  cases maxLedgerDay d.ledger <;> rfl

theorem run_noWork (env : RunEnv) (db : DB) (hl : env.lockOk = true)
    (hw : (runWindow env db).2 ≤ (runWindow env db).1) :
    run_daily_rollup env db =
      ⟨.noWork, db, [.tryLock, .readWindowMeta, .releaseLock]⟩ := by
  simp [run_daily_rollup, hl, hw]

theorem run_work_err (env : RunEnv) (db : DB) (hl : env.lockOk = true)
    (hw : ¬ (runWindow env db).2 ≤ (runWindow env db).1) (e : TxStep)
    (he : (write_phase env.failAt db (runRows env db)
      ((runWindow env db).2 - 1)).1 = .error e) :
    run_daily_rollup env db = ⟨.err e, db, runEffs env db⟩ := by
  have hst := write_phase_error env.failAt db (runRows env db)
    ((runWindow env db).2 - 1) e he
  simp [run_daily_rollup, hl, hw, he, hst]

theorem run_work_ok (env : RunEnv) (db : DB) (hl : env.lockOk = true)
    (hw : ¬ (runWindow env db).2 ≤ (runWindow env db).1)
    (hok : (write_phase env.failAt db (runRows env db)
      ((runWindow env db).2 - 1)).1 = .ok ()) :
    run_daily_rollup env db =
      ⟨.ok, (write_phase env.failAt db (runRows env db)
        ((runWindow env db).2 - 1)).2, runEffs env db⟩ := by
  simp [run_daily_rollup, hl, hw, hok]

theorem runWindow_snd (env : RunEnv) (db : DB) :
    (runWindow env db).2 = env.today + 1 := rfl

/-- Each run either leaves the whole database untouched (lock contention,
empty window, rolled-back transaction) or commits with the watermark set
to the server date and status `SUCCESS`. -/
theorem run_db_watermark (env : RunEnv) (db : DB) :
    (run_daily_rollup env db).db = db
  ∨ ((run_daily_rollup env db).db.watermark = some env.today
      ∧ (run_daily_rollup env db).db.run_status = "SUCCESS"
      ∧ (run_daily_rollup env db).result = .ok) := by
  by_cases hl : env.lockOk
  · by_cases hw : (runWindow env db).2 ≤ (runWindow env db).1
    · left
      rw [run_noWork env db hl hw]
    · rcases write_phase_total env.failAt db (runRows env db)
        ((runWindow env db).2 - 1) with ⟨e, he⟩ | hok
      · left
        rw [run_work_err env db hl hw e he]
      · right
        rw [run_work_ok env db hl hw hok]
        rw [write_phase_ok env.failAt db (runRows env db)
          ((runWindow env db).2 - 1) hok]
        have hsub : (runWindow env db).2 - 1 = env.today := by
          rw [runWindow_snd]
          omega
        by_cases hr : (runRows env db).isEmpty <;>
          simp [hr, hsub, advanceWatermark, refreshStock_watermark,
            refreshStock_run_status]
  · left
    have hl' : env.lockOk = false := by simpa using hl
    simp [run_daily_rollup, hl']

/-- Boolean order on optional watermarks: absent precedes everything. -/
def wmLeB : Option Int → Option Int → Bool
  | none, _ => true
  | some _, none => false
  | some a, some b => decide (a ≤ b)

theorem wmLeB_refl (a : Option Int) : wmLeB a a = true := by
  cases a <;> simp [wmLeB]

theorem runSeq_chain (envs : List RunEnv) (db : DB)
    (hinv : ∀ w, db.watermark = some w → ∀ e ∈ envs, w ≤ e.today)
    (hpw : envs.Pairwise (fun a b => a.today ≤ b.today)) :
    (List.scanl (fun d e => (run_daily_rollup e d).db) db envs).Chain'
      (fun a b => wmLeB a.watermark b.watermark = true) := by
  induction envs generalizing db with
  | nil => simp [List.scanl_nil]
  | cons e rest ih =>
    rw [List.scanl_cons]
    rw [List.pairwise_cons] at hpw
    have hstep := run_db_watermark e db
    obtain ⟨t, ht⟩ : ∃ t,
        List.scanl (fun d e => (run_daily_rollup e d).db)
          ((run_daily_rollup e db).db) rest = (run_daily_rollup e db).db :: t := by
      cases rest <;> simp [List.scanl]
    rw [ht, List.singleton_append, List.chain'_cons]
    constructor
    · rcases hstep with heq | ⟨hwm, -, -⟩
      · rw [heq]
        exact wmLeB_refl _
      · rw [hwm]
        cases hdb : db.watermark with
        | none => rfl
        | some w =>
          have hle := hinv w hdb e (List.mem_cons_self e rest)
          simp [wmLeB, hle]
    · rw [← ht]
      apply ih
      · intro w hw e' he'
        rcases hstep with heq | ⟨hwm, -, -⟩
        · rw [heq] at hw
          exact hinv w hw e' (List.mem_cons_of_mem e he')
        · rw [hwm] at hw
          injection hw with hw
          subst hw
          exact hpw.1 e' he'
      · exact hpw.2

/-- **C7.** Watermark monotonicity: each run either leaves the watermark
and status untouched (lock contention, empty window, transactional
failure) or sets the watermark to `end - 1` = the current server date with
status `SUCCESS` — including runs whose computed row set is empty, which
still advance the watermark; and across any sequence of runs from a fresh
state, with the server date never decreasing between runs, the persisted
watermark never moves backward. -/
theorem C7_watermark_monotonic :
    (∀ (env : RunEnv) (db : DB),
        ((run_daily_rollup env db).db.watermark = db.watermark
          ∧ (run_daily_rollup env db).db.run_status = db.run_status)
      ∨ ((run_daily_rollup env db).db.watermark = some env.today
          ∧ (run_daily_rollup env db).db.run_status = "SUCCESS"
          ∧ (run_daily_rollup env db).result = .ok))
  ∧ (∀ (env : RunEnv) (db : DB), env.lockOk = true →
      ¬ (runWindow env db).2 ≤ (runWindow env db).1 →
      (∀ st, env.failAt st = false) →
      (run_daily_rollup env db).db.watermark = some env.today
        ∧ (run_daily_rollup env db).result = .ok)
  ∧ (∀ (envs : List RunEnv) (db : DB), db.watermark = none →
      envs.Pairwise (fun a b => a.today ≤ b.today) →
      (List.scanl (fun d e => (run_daily_rollup e d).db) db envs).Chain'
        (fun a b => wmLeB a.watermark b.watermark = true)) := by
  refine ⟨?_, ?_, ?_⟩
  · intro env db
    rcases run_db_watermark env db with heq | h
    · left
      rw [heq]
      exact ⟨rfl, rfl⟩
    · right
      exact h
  · intro env db hl hw hnf
    have hwp := write_phase_nofail env.failAt db (runRows env db)
      ((runWindow env db).2 - 1) hnf
    have h1 : (write_phase env.failAt db (runRows env db)
        ((runWindow env db).2 - 1)).1 = .ok () := by
      rw [hwp]
    rw [run_work_ok env db hl hw h1]
    refine ⟨?_, rfl⟩
    rw [write_phase_ok env.failAt db (runRows env db)
      ((runWindow env db).2 - 1) h1]
    have hsub : (runWindow env db).2 - 1 = env.today := by
      rw [runWindow_snd]
      omega
    by_cases hr : (runRows env db).isEmpty <;>
      simp [hr, hsub, advanceWatermark, refreshStock_watermark]
  · intro envs db h0 hpw
    refine runSeq_chain envs db ?_ hpw
    intro w hw
    rw [h0] at hw
    exact absurd hw (by simp)

/-- An uncontended environment with no source activity. -/
def exEnvIdle : RunEnv := ⟨true, 0, none, [], [], [], fun _ => false⟩

theorem C7_watermark_monotonic_witness :
    (List.scanl (fun d e => (run_daily_rollup e d).db) exDB
      [exEnvIdle]).Chain' (fun a b => wmLeB a.watermark b.watermark = true) :=
  C7_watermark_monotonic.2.2 [exEnvIdle] exDB rfl (by simp)

/-! ## Backfill runs and the watermark (implicit behavior) -/

theorem rollItems_day (m : MergedMap) (d : Int) (onHand : String → Int)
    (items : List String) :
    ∀ r ∈ (rollItems m d onHand items).2, r.day = d := by
  induction items generalizing onHand with
  | nil => intro r hr; simp [rollItems] at hr
  | cons i rest ih =>
    intro r hr
    simp only [rollItems, List.mem_cons] at hr
    rcases hr with rfl | hr
    · rfl
    · exact ih _ r hr

theorem rollDays_day_ge (m : MergedMap) (items : List String) (d : Int)
    (n : Nat) (onHand : String → Int) :
    ∀ r ∈ rollDays m items d n onHand, d ≤ r.day := by
  induction n generalizing d onHand with
  | zero => intro r hr; simp [rollDays] at hr
  | succ n ih =>
    intro r hr
    simp only [rollDays, List.mem_append] at hr
    rcases hr with hr | hr
    · rw [rollItems_day m d onHand items r hr]
    · have := ih (d + 1) _ r hr
      omega

theorem roll_forward_day_ge (start end_ : Int) (items : List String)
    (m : MergedMap) (opening : String → Option Int) :
    ∀ r ∈ roll_forward start end_ items m opening, start ≤ r.day :=
  rollDays_day_ge m items start _ _

theorem mem_upsertRow (L : List LedgerRow) (r x : LedgerRow)
    (hx : x ∈ upsertRow L r) :
    x = r ∨ (x ∈ L ∧ (x.day == r.day && x.item == r.item) = false) := by
  unfold upsertRow at hx
  by_cases hany : L.any (fun y => y.day == r.day && y.item == r.item)
  · rw [if_pos hany] at hx
    rw [List.mem_map] at hx
    obtain ⟨y, hy, hxy⟩ := hx
    by_cases hk : (y.day == r.day && y.item == r.item) = true
    · rw [if_pos hk] at hxy
      exact Or.inl hxy.symm
    · rw [if_neg hk] at hxy
      subst hxy
      exact Or.inr ⟨hy, by simpa using hk⟩
  · rw [if_neg hany] at hx
    rw [List.mem_append] at hx
    rcases hx with hx | hx
    · rw [List.any_eq_true] at hany
      push_neg at hany
      refine Or.inr ⟨hx, ?_⟩
      simpa using hany x hx
    · simp only [List.mem_singleton] at hx
      exact Or.inl hx

theorem mem_upsertLedger (L rows : List LedgerRow) (x : LedgerRow)
    (hx : x ∈ upsertLedger L rows) : x ∈ L ∨ x ∈ rows := by
  induction rows generalizing L with
  | nil => exact Or.inl hx
  | cons r rest ih =>
    rcases ih (upsertRow L r) hx with hx' | hx'
    · rcases mem_upsertRow L r x hx' with rfl | ⟨hmem, -⟩
      · exact Or.inr (List.mem_cons_self _ _)
      · exact Or.inl hmem
    · exact Or.inr (List.mem_cons_of_mem _ hx')

/-- Fully reduced committed state of an uncontended, non-failing run over a
nonempty window. -/
theorem run_nofail_state (env : RunEnv) (db : DB) (hl : env.lockOk = true)
    (hw : ¬ (runWindow env db).2 ≤ (runWindow env db).1)
    (hnf : ∀ st, env.failAt st = false) :
    (run_daily_rollup env db).result = .ok
  ∧ (run_daily_rollup env db).db =
      (if (runRows env db).isEmpty then advanceWatermark db env.today
       else refreshStock (advanceWatermark
         { db with ledger := upsertLedger db.ledger (runRows env db) }
         env.today)) := by
  have hwp := write_phase_nofail env.failAt db (runRows env db)
    ((runWindow env db).2 - 1) hnf
  have h1 : (write_phase env.failAt db (runRows env db)
      ((runWindow env db).2 - 1)).1 = .ok () := by
    rw [hwp]
  rw [run_work_ok env db hl hw h1]
  refine ⟨rfl, ?_⟩
  show (write_phase env.failAt db (runRows env db)
    ((runWindow env db).2 - 1)).2 = _
  rw [hwp]
  have hsub : (runWindow env db).2 - 1 = env.today := by
    rw [runWindow_snd]
    omega
  rw [hsub]

/-- **C10 (implicit).** A no-failure run with a caller-supplied start date
`s ≤ today` processes exactly the window `[s, today + 1)` — the fetch
queries only ever see rows of days `≥ s`, and no ledger row of a day `< s`
is created or replaced — yet the run unconditionally advances the
watermark to `today`, thereby marking as reconciled any days between the
old watermark and `s` that it never fetched or wrote. -/
theorem C10_backfill_overmarks (env : RunEnv) (db : DB) (s : Int)
    (hl : env.lockOk = true) (hus : env.userStart = some s)
    (hse : s ≤ env.today) (hnf : ∀ st, env.failAt st = false) :
    runWindow env db = (s, env.today + 1)
  ∧ (run_daily_rollup env db).db.watermark = some env.today
  ∧ (run_daily_rollup env db).result = .ok
  ∧ (∀ r ∈ selectWindow env.sourceP s (env.today + 1), s ≤ r.day)
  ∧ (∀ r ∈ selectWindow env.sourceS s (env.today + 1), s ≤ r.day)
  ∧ (∀ r ∈ (run_daily_rollup env db).db.ledger, r.day < s → r ∈ db.ledger) := by
  have hwin : runWindow env db = (s, env.today + 1) := by
    simp [runWindow, pick_window, hus]
  have hw : ¬ (runWindow env db).2 ≤ (runWindow env db).1 := by
    rw [hwin]
    simp only
    omega
  obtain ⟨hres, hstate⟩ := run_nofail_state env db hl hw hnf
  refine ⟨hwin, ?_, hres, ?_, ?_, ?_⟩
  · rw [hstate]
    by_cases hr : (runRows env db).isEmpty <;>
      simp [hr, advanceWatermark, refreshStock_watermark]
  · intro r hr
    rw [selectWindow, List.mem_filter] at hr
    have := hr.2
    simp only [Bool.and_eq_true, decide_eq_true_eq] at this
    exact this.1
  · intro r hr
    rw [selectWindow, List.mem_filter] at hr
    have := hr.2
    simp only [Bool.and_eq_true, decide_eq_true_eq] at this
    exact this.1
  · intro r hr hday
    rw [hstate] at hr
    by_cases hre : (runRows env db).isEmpty
    · rw [if_pos hre] at hr
      exact hr
    · rw [if_neg hre, refreshStock_ledger] at hr
      have hr' : r ∈ upsertLedger db.ledger (runRows env db) := hr
      rcases mem_upsertLedger db.ledger (runRows env db) r hr' with h | h
      · exact h
      · exfalso
        have hge : (runWindow env db).1 ≤ r.day :=
          roll_forward_day_ge (runWindow env db).1 (runWindow env db).2
            (runItems env db) _ _ r h
        rw [hwin] at hge
        simp only at hge
        omega

/-- An environment supplying an explicit resume date equal to today. -/
def exEnvUser : RunEnv := ⟨true, 1, some 1, [], [], [], fun _ => false⟩

theorem C10_backfill_overmarks_witness :
    runWindow exEnvUser exDB = (1, 2)
  ∧ (run_daily_rollup exEnvUser exDB).db.watermark = some 1
  ∧ (run_daily_rollup exEnvUser exDB).result = .ok
  ∧ (∀ r ∈ selectWindow exEnvUser.sourceP 1 2, 1 ≤ r.day)
  ∧ (∀ r ∈ selectWindow exEnvUser.sourceS 1 2, 1 ≤ r.day)
  ∧ (∀ r ∈ (run_daily_rollup exEnvUser exDB).db.ledger, r.day < 1 →
      r ∈ exDB.ledger) := by
  have h := C10_backfill_overmarks exEnvUser exDB 1 rfl rfl
    (show (1 : Int) ≤ exEnvUser.today by norm_num [exEnvUser]) (fun st => rfl)
  simpa [exEnvUser] using h

/-! ## Idempotence machinery for the keyed upserts -/

theorem upsertLedger_cons (L : List LedgerRow) (r : LedgerRow)
    (rest : List LedgerRow) :
    upsertLedger L (r :: rest) = upsertLedger (upsertRow L r) rest := rfl

theorem upsertRow_pinned (L : List LedgerRow) (r : LedgerRow) :
    ∀ x ∈ upsertRow L r,
      (x.day == r.day && x.item == r.item) = true → x = r := by
  intro x hx hk
  rcases mem_upsertRow L r x hx with rfl | ⟨-, hfalse⟩
  · rfl
  · rw [hk] at hfalse
    exact Bool.noConfusion hfalse

theorem upsertRow_mem_self (L : List LedgerRow) (r : LedgerRow) :
    r ∈ upsertRow L r := by
  unfold upsertRow
  by_cases hany : L.any (fun y => y.day == r.day && y.item == r.item)
  · rw [if_pos hany]
    rw [List.any_eq_true] at hany
    obtain ⟨y, hy, hk⟩ := hany
    rw [List.mem_map]
    exact ⟨y, hy, by rw [if_pos hk]⟩
  · rw [if_neg hany]
    exact List.mem_append_right _ (List.mem_singleton_self r)

theorem upsertRow_mem_preserved (L : List LedgerRow) (r x : LedgerRow)
    (hx : x ∈ L) (hk : (x.day == r.day && x.item == r.item) = false) :
    x ∈ upsertRow L r := by
  unfold upsertRow
  by_cases hany : L.any (fun y => y.day == r.day && y.item == r.item)
  · rw [if_pos hany]
    rw [List.mem_map]
    exact ⟨x, hx, by simp [hk]⟩
  · rw [if_neg hany]
    exact List.mem_append_left _ hx

theorem upsertLedger_mem_preserved (L rows : List LedgerRow)
    (x : LedgerRow) (hx : x ∈ L)
    (hk : ∀ r ∈ rows, (x.day == r.day && x.item == r.item) = false) :
    x ∈ upsertLedger L rows := by
  induction rows generalizing L with
  | nil => exact hx
  | cons r rest ih =>
    rw [upsertLedger_cons]
    exact ih (upsertRow L r)
      (upsertRow_mem_preserved L r x hx (hk r (List.mem_cons_self r rest)))
      (fun r' hr' => hk r' (List.mem_cons_of_mem r hr'))

theorem upsertLedger_pinned_preserved (L rows : List LedgerRow)
    (r0 : LedgerRow)
    (hpin : ∀ x ∈ L, (x.day == r0.day && x.item == r0.item) = true → x = r0)
    (hkeys : ∀ r ∈ rows, (r.day == r0.day && r.item == r0.item) = false) :
    ∀ x ∈ upsertLedger L rows,
      (x.day == r0.day && x.item == r0.item) = true → x = r0 := by
  induction rows generalizing L with
  | nil => exact hpin
  | cons r rest ih =>
    rw [upsertLedger_cons]
    refine ih (upsertRow L r) ?_
      (fun r' hr' => hkeys r' (List.mem_cons_of_mem r hr'))
    intro x hx hk
    rcases mem_upsertRow L r x hx with rfl | ⟨hmem, -⟩
    · rw [hkeys x (List.mem_cons_self x rest)] at hk
      exact Bool.noConfusion hk
    · exact hpin x hmem hk

theorem keyEq_false (a b : LedgerRow)
    (h : ¬(a.day = b.day ∧ a.item = b.item)) :
    (a.day == b.day && a.item == b.item) = false := by
  rw [Bool.and_eq_false_iff]
  by_cases hd : a.day = b.day
  · right
    rw [beq_eq_false_iff_ne]
    exact fun hi => h ⟨hd, hi⟩
  · left
    rw [beq_eq_false_iff_ne]
    exact hd

theorem upsertLedger_pinned_mem (L rows : List LedgerRow)
    (hnd : rows.Pairwise (fun a b => ¬(a.day = b.day ∧ a.item = b.item))) :
    ∀ r ∈ rows,
      (∀ x ∈ upsertLedger L rows,
        (x.day == r.day && x.item == r.item) = true → x = r)
      ∧ r ∈ upsertLedger L rows := by
  induction rows generalizing L with
  | nil => intro r hr; simp at hr
  | cons r0 rest ih =>
    rw [List.pairwise_cons] at hnd
    intro r hr
    rcases List.mem_cons.mp hr with rfl | hr'
    · rw [upsertLedger_cons]
      constructor
      · exact upsertLedger_pinned_preserved (upsertRow L r) rest r
          (upsertRow_pinned L r)
          (fun r' hr' => keyEq_false r' r
            (fun ⟨h1, h2⟩ => hnd.1 r' hr' ⟨h1.symm, h2.symm⟩))
      · exact upsertLedger_mem_preserved (upsertRow L r) rest r
          (upsertRow_mem_self L r)
          (fun r' hr' => keyEq_false r r' (hnd.1 r' hr'))
    · rw [upsertLedger_cons]
      exact ih (upsertRow L r0) hnd.2 r hr'

theorem upsertRow_id (L : List LedgerRow) (r : LedgerRow)
    (hpin : ∀ x ∈ L, (x.day == r.day && x.item == r.item) = true → x = r)
    (hmem : r ∈ L) :
    upsertRow L r = L := by
  unfold upsertRow
  rw [if_pos (List.any_eq_true.mpr ⟨r, hmem, by simp⟩)]
  have hid : ∀ x ∈ L,
      (if x.day == r.day && x.item == r.item then r else x) = id x := by
    intro x hx
    by_cases hk : (x.day == r.day && x.item == r.item) = true
    · rw [if_pos hk, hpin x hx hk]
      rfl
    · rw [if_neg hk]
      rfl
  rw [List.map_congr_left hid, List.map_id]

theorem upsertLedger_self_id (L' rows : List LedgerRow)
    (h : ∀ r ∈ rows,
      (∀ x ∈ L', (x.day == r.day && x.item == r.item) = true → x = r)
      ∧ r ∈ L') :
    upsertLedger L' rows = L' := by
  induction rows with
  | nil => rfl
  | cons r rest ih =>
    rw [upsertLedger_cons,
      upsertRow_id L' r (h r (List.mem_cons_self r rest)).1
        (h r (List.mem_cons_self r rest)).2]
    exact ih (fun r' hr' => h r' (List.mem_cons_of_mem r hr'))

/-- Upserting the same key-distinct batch a second time is a no-op. -/
theorem upsertLedger_idem (L rows : List LedgerRow)
    (hnd : rows.Pairwise (fun a b => ¬(a.day = b.day ∧ a.item = b.item))) :
    upsertLedger (upsertLedger L rows) rows = upsertLedger L rows :=
  upsertLedger_self_id _ rows
    (fun r hr => upsertLedger_pinned_mem L rows hnd r hr)

/-! ## `find?` invariance of upserts at untouched keys -/

theorem find?_map_keyReplace (L : List LedgerRow) (r : LedgerRow)
    (q : LedgerRow → Bool) (hqr : q r = false)
    (hq : ∀ x, (x.day == r.day && x.item == r.item) = true → q x = false) :
    (L.map (fun x =>
      if x.day == r.day && x.item == r.item then r else x)).find? q
      = L.find? q := by
  induction L with
  | nil => rfl
  | cons x L ih =>
    simp only [List.map_cons]
    by_cases hk : (x.day == r.day && x.item == r.item) = true
    · rw [if_pos hk]
      rw [List.find?_cons_of_neg _ (by simp [hqr]),
        List.find?_cons_of_neg _ (by simp [hq x hk])]
      exact ih
    · rw [if_neg hk]
      cases hqx : q x with
      | true =>
        rw [List.find?_cons_of_pos _ (by simp [hqx]),
          List.find?_cons_of_pos _ (by simp [hqx])]
      | false =>
        rw [List.find?_cons_of_neg _ (by simp [hqx]),
          List.find?_cons_of_neg _ (by simp [hqx])]
        exact ih

theorem find?_append_singleton (L : List LedgerRow) (r : LedgerRow)
    (q : LedgerRow → Bool) (hqr : q r = false) :
    (L ++ [r]).find? q = L.find? q := by
  induction L with
  | nil => simp [List.find?, hqr]
  | cons x L ih =>
    rw [List.cons_append]
    cases hqx : q x with
    | true =>
      rw [List.find?_cons_of_pos _ (by simp [hqx]),
        List.find?_cons_of_pos _ (by simp [hqx])]
    | false =>
      rw [List.find?_cons_of_neg _ (by simp [hqx]),
        List.find?_cons_of_neg _ (by simp [hqx])]
      exact ih

theorem find?_upsertRow (L : List LedgerRow) (r : LedgerRow)
    (q : LedgerRow → Bool) (hqr : q r = false)
    (hq : ∀ x, (x.day == r.day && x.item == r.item) = true → q x = false) :
    (upsertRow L r).find? q = L.find? q := by
  unfold upsertRow
  by_cases hany : L.any (fun y => y.day == r.day && y.item == r.item)
  · rw [if_pos hany]
    exact find?_map_keyReplace L r q hqr hq
  · rw [if_neg hany]
    exact find?_append_singleton L r q hqr

theorem find?_upsertLedger (L rows : List LedgerRow) (q : LedgerRow → Bool)
    (h : ∀ r ∈ rows, q r = false ∧
      ∀ x, (x.day == r.day && x.item == r.item) = true → q x = false) :
    (upsertLedger L rows).find? q = L.find? q := by
  induction rows generalizing L with
  | nil => rfl
  | cons r rest ih =>
    rw [upsertLedger_cons,
      ih (upsertRow L r) (fun r' hr' => h r' (List.mem_cons_of_mem r hr')),
      find?_upsertRow L r q (h r (List.mem_cons_self r rest)).1
        (h r (List.mem_cons_self r rest)).2]

/-! ## Key-distinctness of roll-forward batches -/

theorem rollDays_keysNodup (m : MergedMap) (items : List String)
    (hnd : items.Nodup) (d : Int) (n : Nat) (onHand : String → Int) :
    (rollDays m items d n onHand).Pairwise
      (fun a b => ¬(a.day = b.day ∧ a.item = b.item)) := by
  induction n generalizing d onHand with
  | zero => simp [rollDays]
  | succ n ih =>
    show ((rollItems m d onHand items).2
      ++ rollDays m items (d + 1) n (rollItems m d onHand items).1).Pairwise _
    rw [List.pairwise_append]
    refine ⟨?_, ih _ _, ?_⟩
    · rw [rollItems_snd m d onHand items hnd, List.pairwise_map]
      refine List.Pairwise.imp ?_ hnd
      intro a b hab hk
      exact hab hk.2
    · intro a ha b hb hk
      have h1 : a.day = d := rollItems_day m d onHand items a ha
      have h2 : d + 1 ≤ b.day :=
        rollDays_day_ge m items (d + 1) n _ b hb
      omega

theorem roll_forward_keysNodup (start end_ : Int) (items : List String)
    (m : MergedMap) (opening : String → Option Int) (hnd : items.Nodup) :
    (roll_forward start end_ items m opening).Pairwise
      (fun a b => ¬(a.day = b.day ∧ a.item = b.item)) :=
  rollDays_keysNodup m items hnd start _ _

/-! ## Stock snapshot: on-hand projection -/

theorem refreshStock_stock_none (d : DB) (i : String)
    (hm : maxLedgerDay d.ledger = none) :
    (refreshStock d).stock i = d.stock i := by
  unfold refreshStock
  rw [hm]

theorem refreshStock_stock_found (d : DB) (i : String) (last : Int)
    (r : LedgerRow) (hm : maxLedgerDay d.ledger = some last)
    (hf : d.ledger.find? (fun r => r.day == last && r.item == i) = some r) :
    (refreshStock d).stock i =
      some (r.on_hand_end, ((d.stock i).map (fun q => q.2)).getD 0 + 1) := by
  unfold refreshStock
  rw [hm]
  simp only
  rw [hf]

theorem refreshStock_stock_notfound (d : DB) (i : String) (last : Int)
    (hm : maxLedgerDay d.ledger = some last)
    (hf : d.ledger.find? (fun r => r.day == last && r.item == i) = none) :
    (refreshStock d).stock i = d.stock i := by
  unfold refreshStock
  rw [hm]
  simp only
  rw [hf]

/-! ## Idempotence of re-processing a window -/

/-- An uncontended environment replaying the single-day window `[0, 1)`
with one purchase of item `A`. -/
def exEnvC8 : RunEnv :=
  ⟨true, 0, some 0, [⟨0, "A", some 5⟩], [], ["A"], fun _ => false⟩

/-- **C8, counterexample.** Re-running the same window with identical
source data does *not* leave the stock snapshot identical: the stock
refresh increments the `version` counter on every conflict
(`version = stock.version + 1` in `sql_upsert_stock_from_latest_day`), so
the second run bumps item `A`'s snapshot from version 1 to version 2. -/
theorem C8_idempotence_counterexample :
    (run_daily_rollup exEnvC8 (run_daily_rollup exEnvC8 exDB).db).db.stock "A"
      ≠ (run_daily_rollup exEnvC8 exDB).db.stock "A" := by
  decide

/-- **C8, amended.** Re-running the same window (caller-supplied start,
same server date, identical source data, no failures) yields identical
ledger rows, watermark, and run status, and identical stock *on-hand*
values — but not an identical stock snapshot: its `version` counter (and
`updated_at`/`computed_at` timestamps, not modelled) advance on every run,
as the counterexample shows. -/
theorem C8_idempotence (env : RunEnv) (db : DB) (s : Int)
    (hl : env.lockOk = true) (hus : env.userStart = some s)
    (hse : s ≤ env.today) (hnf : ∀ st, env.failAt st = false) :
    (run_daily_rollup env (run_daily_rollup env db).db).db.ledger
        = (run_daily_rollup env db).db.ledger
  ∧ (run_daily_rollup env (run_daily_rollup env db).db).db.watermark
        = (run_daily_rollup env db).db.watermark
  ∧ (run_daily_rollup env (run_daily_rollup env db).db).db.run_status
        = (run_daily_rollup env db).db.run_status
  ∧ ∀ i,
      ((run_daily_rollup env (run_daily_rollup env db).db).db.stock i).map
          (fun q => q.1)
        = ((run_daily_rollup env db).db.stock i).map (fun q => q.1) := by
  have hwin : ∀ X : DB, runWindow env X = (s, env.today + 1) := fun X => by
    simp [runWindow, pick_window, hus]
  have hw : ∀ X : DB, ¬ (runWindow env X).2 ≤ (runWindow env X).1 := by
    intro X
    rw [hwin X]
    simp only
    omega
  have hfetch : ∀ X : DB, runFetched env X = runFetched env db := fun X => by
    simp only [runFetched, hwin X, hwin db]
  have hitems : ∀ X : DB, runItems env X = runItems env db := fun X => by
    simp only [runItems, hfetch X]
  obtain ⟨hres1, hstate1⟩ := run_nofail_state env db hl (hw db) hnf
  set db1 : DB := (run_daily_rollup env db).db with hdb1
  have hledger1 : db1.ledger =
      (if (runRows env db).isEmpty then db.ledger
       else upsertLedger db.ledger (runRows env db)) := by
    rw [hstate1]
    by_cases hre : (runRows env db).isEmpty <;>
      simp [hre, advanceWatermark, refreshStock_ledger]
  have hdayge : ∀ r ∈ runRows env db, s ≤ r.day := by
    intro r hr
    have := roll_forward_day_ge (runWindow env db).1 (runWindow env db).2
      (runItems env db) _ _ r hr
    rwa [hwin db] at this
  have hopen : opening_balances db1.ledger s (runItems env db)
      = opening_balances db.ledger s (runItems env db) := by
    funext i
    unfold opening_balances
    by_cases hi : i ∈ runItems env db
    · rw [if_pos hi, if_pos hi]
      congr 1
      rw [hledger1]
      by_cases hre : (runRows env db).isEmpty
      · rw [if_pos hre]
      · rw [if_neg hre]
        apply find?_upsertLedger
        intro r hr
        have hsr : s ≤ r.day := hdayge r hr
        constructor
        · rw [Bool.and_eq_false_iff]
          left
          rw [beq_eq_false_iff_ne]
          omega
        · intro x hkx
          rw [Bool.and_eq_true] at hkx
          have hxd : x.day = r.day := by
            have := hkx.1
            rwa [beq_iff_eq] at this
          rw [Bool.and_eq_false_iff]
          left
          rw [beq_eq_false_iff_ne]
          omega
    · rw [if_neg hi, if_neg hi]
  have hrows : runRows env db1 = runRows env db := by
    simp only [runRows, hwin db1, hwin db, hfetch db1, hitems db1]
    rw [hopen]
  obtain ⟨hres2, hstate2⟩ := run_nofail_state env db1 hl (hw db1) hnf
  rw [hrows] at hstate2
  by_cases hre : (runRows env db).isEmpty
  · rw [if_pos hre] at hstate1 hstate2
    refine ⟨?_, ?_, ?_, ?_⟩
    · rw [hstate2, hstate1]
      rfl
    · rw [hstate2, hstate1]
      rfl
    · rw [hstate2, hstate1]
      rfl
    · intro i
      rw [hstate2]
      rfl
  · rw [if_neg hre] at hstate1 hstate2
    have hknd : (runRows env db).Pairwise
        (fun a b => ¬(a.day = b.day ∧ a.item = b.item)) := by
      simp only [runRows]
      exact roll_forward_keysNodup _ _ _ _ _ (merge_items_nodup _ _)
    have hled1 : db1.ledger = upsertLedger db.ledger (runRows env db) := by
      rw [hledger1, if_neg hre]
    have hidem : upsertLedger db1.ledger (runRows env db) = db1.ledger := by
      rw [hled1]
      exact upsertLedger_idem db.ledger (runRows env db) hknd
    have hstate2' : (run_daily_rollup env db1).db
        = refreshStock (advanceWatermark db1 env.today) := by
      rw [hstate2, hidem]
    refine ⟨?_, ?_, ?_, ?_⟩
    · rw [hstate2', refreshStock_ledger]
      rfl
    · rw [hstate2', refreshStock_watermark, hstate1, refreshStock_watermark]
      rfl
    · rw [hstate2', refreshStock_run_status, hstate1, refreshStock_run_status]
      rfl
    · intro i
      rw [hstate2']
      cases hmax : maxLedgerDay db1.ledger with
      | none =>
        have hm' : maxLedgerDay (advanceWatermark db1 env.today).ledger
            = none := hmax
        rw [refreshStock_stock_none _ i hm']
        rfl
      | some last =>
        have hm' : maxLedgerDay (advanceWatermark db1 env.today).ledger
            = some last := hmax
        cases hf : db1.ledger.find? (fun r => r.day == last && r.item == i)
          with
        | none =>
          have hf' : (advanceWatermark db1 env.today).ledger.find?
              (fun r => r.day == last && r.item == i) = none := hf
          rw [refreshStock_stock_notfound _ i last hm' hf']
          rfl
        | some r =>
          have hf' : (advanceWatermark db1 env.today).ledger.find?
              (fun r => r.day == last && r.item == i) = some r := hf
          rw [refreshStock_stock_found _ i last r hm' hf']
          have hmB : maxLedgerDay (advanceWatermark
              { db with ledger := upsertLedger db.ledger (runRows env db) }
              env.today).ledger = some last := by
            show maxLedgerDay (upsertLedger db.ledger (runRows env db))
              = some last
            rw [← hled1]
            exact hmax
          have hfB : (advanceWatermark
              { db with ledger := upsertLedger db.ledger (runRows env db) }
              env.today).ledger.find?
              (fun r => r.day == last && r.item == i) = some r := by
            show (upsertLedger db.ledger (runRows env db)).find?
              (fun r => r.day == last && r.item == i) = some r
            rw [← hled1]
            exact hf
          conv_rhs => rw [hstate1]
          rw [refreshStock_stock_found _ i last r hmB hfB]
          rfl

theorem C8_idempotence_witness :
    ((run_daily_rollup exEnvC8 (run_daily_rollup exEnvC8 exDB).db).db.ledger
        = (run_daily_rollup exEnvC8 exDB).db.ledger)
  ∧ ((run_daily_rollup exEnvC8 (run_daily_rollup exEnvC8 exDB).db).db.watermark
        = (run_daily_rollup exEnvC8 exDB).db.watermark)
  ∧ ((run_daily_rollup exEnvC8 (run_daily_rollup exEnvC8 exDB).db).db.run_status
        = (run_daily_rollup exEnvC8 exDB).db.run_status)
  ∧ ∀ i,
      ((run_daily_rollup exEnvC8 (run_daily_rollup exEnvC8 exDB).db).db.stock
          i).map (fun q => q.1)
        = ((run_daily_rollup exEnvC8 exDB).db.stock i).map (fun q => q.1) :=
  C8_idempotence exEnvC8 exDB 0 rfl rfl (by norm_num [exEnvC8])
    (fun st => rfl)

end SyncStock
